import Mathlib

/-
Verification of the buffered-connection layer of pwnlib
(src/pwnlib/connection.py) against its natural-language specification.

The embedding models the `Connection` class.  Bytes are `Nat` values,
byte strings are `List Nat`.  The underlying socket is the external
transport collaborator: its behaviour is scripted by a list of receive
events and a list of send events carried in the connection state, so that
every operation is a pure, executable function of the state.  The
`maxBytes` argument of a receive only bounds a single chunk's size and is
not modelled: the event script directly records what each successive
receive call returns.  Logging calls (`trace`, `info`, ...) return nothing
and do not affect the byte-level behaviour, so they are omitted.

Loops in the source (`read_raw`, `read_until`) are modelled with an
explicit fuel parameter; a result of `none` means the source loop has not
terminated within `fuel` iterations, and a statement proved for every
fuel value expresses genuine divergence.
-/

namespace Pwnlib

/-- Error taxonomy of the specification.  In the source, `timeoutError` is
`socket.timeout` raised by `recv`/`send`, `connectionClosedError` is the
transport-raised connection-severed error, and `encodingError` is the
`OverflowError` raised by `int.to_bytes` when the value does not fit. -/
inductive ConnError where
  | timeoutError
  | connectionClosedError
  | encodingError
deriving DecidableEq

/-- Modelled from the spec: one scripted outcome of a transport receive
call (`socket.recv`).  `chunk bs` means the call returns the bytes `bs`;
`timeout` means it raises the timeout error; `closed` means it raises the
connection-severed error; `eof` means the peer has closed the stream, so
this call and every later one return the empty byte string (Python's
`recv` returns `b""` forever after end of stream), which is why the `eof`
event is never consumed. -/
inductive RecvEvent where
  | chunk (bs : List Nat)
  | timeout
  | closed
  | eof
deriving DecidableEq

/-- Modelled from the spec: one scripted outcome of a transport send call
(`socket.send`).  Per the transport contract of the spec, a send either
transmits the whole payload (`accept`) or fails (`timeout` / `closed`). -/
inductive SendEvent where
  | accept
  | timeout
  | closed
deriving DecidableEq

/-- Byte order argument of `write_int`, mirroring the `byte_order`
literal `"little" | "big"` of the source. -/
inductive ByteOrder where
  | little
  | big
deriving DecidableEq

/-- State of a `Connection`.  `data` is the pending buffer (`self.data`
in the source).  `events`, `sent` and `sendEvents` model the socket:
`events` scripts the outcomes of future receive calls, `sent` accumulates
the bytes the transport has transmitted, `sendEvents` scripts the
outcomes of future send calls.  `closed` records whether `close()` has
been called on our side (a closed socket raises on any receive or send,
which the spec files under the connection-closed error). -/
structure Connection where
  data : List Nat
  events : List RecvEvent
  sent : List Nat
  sendEvents : List SendEvent
  closed : Bool
deriving DecidableEq

/-- Modelled from the spec: the transport receive primitive
(`self.socket.recv(...)`).  An exhausted event script means no further
byte arrives before the deadline, hence a timeout. -/
def recv (c : Connection) : Except ConnError (List Nat) × Connection :=
  if c.closed then (Except.error ConnError.connectionClosedError, c)
  else
    match c.events with
    | [] => (Except.error ConnError.timeoutError, c)
    | RecvEvent.chunk bs :: rest => (Except.ok bs, { c with events := rest })
    | RecvEvent.timeout :: rest => (Except.error ConnError.timeoutError, { c with events := rest })
    | RecvEvent.closed :: rest => (Except.error ConnError.connectionClosedError, { c with events := rest })
    | RecvEvent.eof :: _ => (Except.ok [], c)

/-- Modelled from the spec: the transport send primitive
(`self.socket.send(...)`): it transmits the entire payload or fails.  An
exhausted send script defaults to acceptance. -/
def send (v : List Nat) (c : Connection) : Except ConnError Unit × Connection :=
  if c.closed then (Except.error ConnError.connectionClosedError, c)
  else
    match c.sendEvents with
    | [] => (Except.ok (), { c with sent := c.sent ++ v })
    | SendEvent.accept :: rest =>
        (Except.ok (), { c with sent := c.sent ++ v, sendEvents := rest })
    | SendEvent.timeout :: rest =>
        (Except.error ConnError.timeoutError, { c with sendEvents := rest })
    | SendEvent.closed :: rest =>
        (Except.error ConnError.connectionClosedError, { c with sendEvents := rest })

/-- Embedding of `Connection.close`: `self.socket.close()`.  Note the
source does not clear `self.data`. -/
def close (c : Connection) : Connection := { c with closed := true }

/-- Embedding of `Connection.read_raw`:
`while len(self.data) < byte_count: self.data += self.socket.recv(...)`,
then `result, self.data = self.data[:byte_count], self.data[byte_count:]`.
The first argument is fuel bounding the number of loop iterations;
`none` means the loop has not terminated within that bound. -/
def read_raw : Nat → Nat → Connection → Option (Except ConnError (List Nat) × Connection)
  | 0, _, _ => none
  | fuel + 1, n, c =>
    if c.data.length < n then
      match recv c with
      | (Except.error e, c') => some (Except.error e, c')
      | (Except.ok bs, c') => read_raw fuel n { c' with data := c'.data ++ bs }
    else
      some (Except.ok (c.data.take n), { c with data := c.data.drop n })

/-- Embedding of Python's `bytes.isPrefix`-style comparison used to define
`bytes.find`: `isPfx needle hay` is true when `hay` starts with `needle`. -/
def isPfx : List Nat → List Nat → Bool
  | [], _ => true
  | _ :: _, [] => false
  | a :: as, b :: bs => a == b && isPfx as bs

/-- Embedding of Python's `bytes.find`: index of the first occurrence of
`needle` in `hay`, `none` when absent.  For an empty needle the result is
`some 0`, exactly as in Python. -/
def bytesFind (hay needle : List Nat) : Option Nat :=
  if isPfx needle hay then some 0
  else
    match hay with
    | [] => none
    | _ :: t => Option.map (fun k => k + 1) (bytesFind t needle)

/-- Embedding of `Connection.read_until`: search `self.data` for `value`;
on a hit at index `i`, split at `i + len(value)` when `include` is set,
else at `i`; otherwise append one receive's worth of bytes and retry.
Fuel bounds the number of loop iterations. -/
def read_until : Nat → List Nat → Bool → Connection →
    Option (Except ConnError (List Nat) × Connection)
  | 0, _, _, _ => none
  | fuel + 1, value, incl, c =>
    match bytesFind c.data value with
    | some i =>
      let idx := if incl then i + value.length else i
      some (Except.ok (c.data.take idx), { c with data := c.data.drop idx })
    | none =>
      match recv c with
      | (Except.error e, c') => some (Except.error e, c')
      | (Except.ok bs, c') => read_until fuel value incl { c' with data := c'.data ++ bs }

/-- Embedding of `Connection.read_line`: `read_until(b"\n")` with the
default `include=True`; the newline byte is 10. -/
def read_line (fuel : Nat) (c : Connection) :
    Option (Except ConnError (List Nat) × Connection) :=
  read_until fuel [10] true c

/-- Embedding of `Connection.write`: forwards the whole payload to the
transport send (the trace log that follows does not affect the bytes). -/
def write (v : List Nat) (c : Connection) : Except ConnError Unit × Connection :=
  send v c

/-- Bytes of a natural number in big-endian order, exactly `n` bytes,
truncating to the low `8*n` bits (the fit check happens before this is
used, mirroring `int.to_bytes`). -/
def natToBytesBE : Nat → Nat → List Nat
  | 0, _ => []
  | k + 1, v => natToBytesBE k (v / 256) ++ [v % 256]

/-- Big-endian decoder, the inverse reading of `natToBytesBE`. -/
def decodeBE (bs : List Nat) : Nat :=
  bs.foldl (fun a b => 256 * a + b) 0

/-- Fit condition of `int.to_bytes` for `signed=False`:
`0 ≤ v < 256^n`. -/
def fitsU (v : Int) (n : Nat) : Bool :=
  decide (0 ≤ v) && decide (v < 2 ^ (8 * n))

/-- Fit condition of `int.to_bytes` for `signed=True`:
`-2^(8n-1) ≤ v < 2^(8n-1)` for positive `n`, and only `0` for `n = 0`. -/
def fitsS (v : Int) (n : Nat) : Bool :=
  match n with
  | 0 => v == 0
  | m + 1 => decide (-(2 ^ (8 * m + 7)) ≤ v) && decide (v < 2 ^ (8 * m + 7))

/-- Embedding of Python's `value.to_bytes(byte_count, byte_order, signed=...)`:
checks the fit condition (raising the encoding error otherwise, which the
spec calls `EncodingError` and CPython `OverflowError`), then emits the
two's-complement bytes `(v mod 2^(8n))` in the requested order. -/
def to_bytes (v : Int) (n : Nat) (bo : ByteOrder) (sgn : Bool) :
    Except ConnError (List Nat) :=
  if (if sgn then fitsS v n else fitsU v n) then
    let bs := natToBytesBE n (v % (2 : Int) ^ (8 * n)).toNat
    Except.ok (match bo with | ByteOrder.big => bs | ByteOrder.little => bs.reverse)
  else
    Except.error ConnError.encodingError

/-- Embedding of `Connection.write_int`: encode, then `write` the encoded
bytes; the encoding error is raised before any byte reaches the
transport. -/
def write_int (v : Int) (n : Nat) (bo : ByteOrder) (sgn : Bool) (c : Connection) :
    Except ConnError Unit × Connection :=
  match to_bytes v n bo sgn with
  | Except.error e => (Except.error e, c)
  | Except.ok bs => write bs c

/-- Concatenation of a list of chunks, the total byte sequence a chunked
transport script delivers. -/
def joinL : List (List Nat) → List Nat
  | [] => []
  | c :: cs => c ++ joinL cs

theorem isPfx_append {d h r : List Nat} (hp : isPfx d h = true) :
    isPfx d (h ++ r) = true := by
  induction d generalizing h with
  | nil => simp [isPfx]
  | cons a as ih =>
    cases h with
    | nil => simp [isPfx] at hp
    | cons b bs =>
      simp [isPfx] at hp ⊢
      exact ⟨hp.1, ih hp.2⟩

theorem isPfx_length {d h : List Nat} (hp : isPfx d h = true) :
    d.length ≤ h.length := by
  induction d generalizing h with
  | nil => simp
  | cons a as ih =>
    cases h with
    | nil => simp [isPfx] at hp
    | cons b bs =>
      simp [isPfx] at hp
      have := ih hp.2
      simp
      omega

theorem isPfx_take {d h : List Nat} (hp : isPfx d h = true) :
    h.take d.length = d := by
  induction d generalizing h with
  | nil => simp
  | cons a as ih =>
    cases h with
    | nil => simp [isPfx] at hp
    | cons b bs =>
      simp [isPfx] at hp
      simp [List.take_succ_cons, hp.1, ih hp.2]

theorem isPfx_of_append_le {d h r : List Nat} (hp : isPfx d (h ++ r) = true)
    (hl : d.length ≤ h.length) : isPfx d h = true := by
  induction d generalizing h with
  | nil => simp [isPfx]
  | cons a as ih =>
    cases h with
    | nil => simp at hl
    | cons b bs =>
      simp [isPfx] at hp ⊢
      simp at hl
      exact ⟨hp.1, ih hp.2 (by omega)⟩

theorem bytesFind_isPfx {hay d : List Nat} {i : Nat} (hf : bytesFind hay d = some i) :
    isPfx d (hay.drop i) = true := by
  induction hay generalizing i with
  | nil =>
    by_cases hp : isPfx d [] = true
    · simp [bytesFind, hp] at hf
      subst hf
      simpa using hp
    · simp [bytesFind, hp] at hf
  | cons x t ih =>
    by_cases hp : isPfx d (x :: t) = true
    · simp [bytesFind, hp] at hf
      subst hf
      simpa using hp
    · simp [bytesFind, hp, Option.map_eq_some'] at hf
      obtain ⟨k, hk, rfl⟩ := hf
      simpa using ih hk

theorem bytesFind_le {hay d : List Nat} {i : Nat} (hf : bytesFind hay d = some i) :
    i ≤ hay.length := by
  induction hay generalizing i with
  | nil =>
    by_cases hp : isPfx d [] = true
    · simp [bytesFind, hp] at hf
      omega
    · simp [bytesFind, hp] at hf
  | cons x t ih =>
    by_cases hp : isPfx d (x :: t) = true
    · simp [bytesFind, hp] at hf
      subst hf
      simp
    · simp [bytesFind, hp, Option.map_eq_some'] at hf
      obtain ⟨k, hk, rfl⟩ := hf
      have := ih hk
      simp
      omega

theorem bytesFind_bound {hay d : List Nat} {i : Nat} (hf : bytesFind hay d = some i) :
    i + d.length ≤ hay.length := by
  have h1 := isPfx_length (bytesFind_isPfx hf)
  have h2 := bytesFind_le hf
  simp [List.length_drop] at h1
  omega

theorem bytesFind_nil_needle (hay : List Nat) : bytesFind hay [] = some 0 := by
  cases hay with
  | nil => rfl
  | cons x t => rfl

theorem bytesFind_append {hay d : List Nat} {i : Nat} (hf : bytesFind hay d = some i)
    (r : List Nat) : bytesFind (hay ++ r) d = some i := by
  induction hay generalizing i with
  | nil =>
    by_cases hp : isPfx d [] = true
    · simp [bytesFind, hp] at hf
      subst hf
      have hd : d = [] := by
        cases d with
        | nil => rfl
        | cons a as => simp [isPfx] at hp
      subst hd
      exact bytesFind_nil_needle r
    · simp [bytesFind, hp] at hf
  | cons x t ih =>
    by_cases hp : isPfx d (x :: t) = true
    · simp [bytesFind, hp] at hf
      subst hf
      have hpr : isPfx d (x :: (t ++ r)) = true := by
        simpa using isPfx_append hp
      simp [bytesFind, hpr]
    · simp [bytesFind, hp, Option.map_eq_some'] at hf
      obtain ⟨k, hk, rfl⟩ := hf
      have hb := bytesFind_bound hk
      have hp' : ¬ isPfx d ((x :: t) ++ r) = true := by
        intro hcon
        exact hp (isPfx_of_append_le hcon (by simp; omega))
      simp only [List.cons_append]
      simp only [List.cons_append] at hp'
      simp [bytesFind, hp', ih hk]

theorem bytesFind_none_mono {hay r d : List Nat} (hf : bytesFind (hay ++ r) d = none) :
    bytesFind hay d = none := by
  cases h : bytesFind hay d with
  | none => rfl
  | some i =>
    rw [bytesFind_append h r] at hf
    exact absurd hf (by simp)


theorem read_until_found {fuel : Nat} {d data : List Nat} {incl : Bool} {i : Nat}
    {evs : List RecvEvent} {s : List Nat} {se : List SendEvent} {cl : Bool}
    (hf : bytesFind data d = some i) :
    read_until (fuel + 1) d incl ⟨data, evs, s, se, cl⟩ =
      some (Except.ok (data.take (if incl then i + d.length else i)),
        ⟨data.drop (if incl then i + d.length else i), evs, s, se, cl⟩) := by
  simp [read_until, hf]

theorem read_until_chunk_step {fuel : Nat} {d data ch : List Nat} {incl : Bool}
    {evs : List RecvEvent} {s : List Nat} {se : List SendEvent}
    (hf : bytesFind data d = none) :
    read_until (fuel + 1) d incl ⟨data, RecvEvent.chunk ch :: evs, s, se, false⟩ =
      read_until fuel d incl ⟨data ++ ch, evs, s, se, false⟩ := by
  simp [read_until, hf, recv]

theorem read_until_timeout_step {fuel : Nat} {d data : List Nat} {incl : Bool}
    {evs : List RecvEvent} {s : List Nat} {se : List SendEvent}
    (hf : bytesFind data d = none) :
    read_until (fuel + 1) d incl ⟨data, RecvEvent.timeout :: evs, s, se, false⟩ =
      some (Except.error ConnError.timeoutError, ⟨data, evs, s, se, false⟩) := by
  simp [read_until, hf, recv]

theorem read_until_closed_step {fuel : Nat} {d data : List Nat} {incl : Bool}
    {evs : List RecvEvent} {s : List Nat} {se : List SendEvent}
    (hf : bytesFind data d = none) :
    read_until (fuel + 1) d incl ⟨data, RecvEvent.closed :: evs, s, se, false⟩ =
      some (Except.error ConnError.connectionClosedError, ⟨data, evs, s, se, false⟩) := by
  simp [read_until, hf, recv]

theorem read_until_eof_step {fuel : Nat} {d data : List Nat} {incl : Bool}
    {evs : List RecvEvent} {s : List Nat} {se : List SendEvent}
    (hf : bytesFind data d = none) :
    read_until (fuel + 1) d incl ⟨data, RecvEvent.eof :: evs, s, se, false⟩ =
      read_until fuel d incl ⟨data, RecvEvent.eof :: evs, s, se, false⟩ := by
  simp [read_until, hf, recv]

theorem read_until_eof_none (fuel : Nat) {d data : List Nat} {incl : Bool}
    {evs : List RecvEvent} {s : List Nat} {se : List SendEvent}
    (hf : bytesFind data d = none) :
    read_until fuel d incl ⟨data, RecvEvent.eof :: evs, s, se, false⟩ = none := by
  induction fuel with
  | zero => rfl
  | succ f ih => rw [read_until_eof_step hf]; exact ih

theorem read_until_chunks (cs : List (List Nat)) (data : List Nat) (s : List Nat)
    (se : List SendEvent) (d : List Nat) (incl : Bool) (i fuel : Nat)
    (hfuel : cs.length < fuel)
    (hf : bytesFind (data ++ joinL cs) d = some i) :
    ∃ j data', j ≤ cs.length ∧
      read_until fuel d incl ⟨data, List.map RecvEvent.chunk cs, s, se, false⟩ =
        some (Except.ok ((data ++ joinL cs).take (if incl then i + d.length else i)),
          ⟨data', List.map RecvEvent.chunk (cs.drop j), s, se, false⟩) ∧
      data' ++ joinL (cs.drop j) =
        (data ++ joinL cs).drop (if incl then i + d.length else i) := by
  induction cs generalizing data fuel with
  | nil =>
    have hf' : bytesFind data d = some i := by simpa [joinL] using hf
    obtain ⟨f, rfl⟩ : ∃ f, fuel = f + 1 := ⟨fuel - 1, by omega⟩
    refine ⟨0, data.drop (if incl then i + d.length else i), Nat.le_refl 0, ?_, ?_⟩
    · rw [List.map_nil, read_until_found hf']
      simp [joinL]
    · simp [joinL]
  | cons c cs ih =>
    obtain ⟨f, rfl⟩ : ∃ f, fuel = f + 1 := ⟨fuel - 1, by omega⟩
    cases hfd : bytesFind data d with
    | some i0 =>
      have : bytesFind (data ++ joinL (c :: cs)) d = some i0 :=
        bytesFind_append hfd (joinL (c :: cs))
      have hii : i0 = i := by rw [this] at hf; exact Option.some.inj hf
      subst hii
      have hidx : (if incl then i0 + d.length else i0) ≤ data.length := by
        have := bytesFind_bound hfd
        cases incl <;> simp <;> omega
      refine ⟨0, data.drop (if incl then i0 + d.length else i0), by omega, ?_, ?_⟩
      · rw [read_until_found hfd]
        rw [List.take_append_of_le_length hidx]
        simp
      · rw [List.drop_append_of_le_length hidx]
        simp
    | none =>
      have hfuel' : cs.length < f := by
        simp only [List.length_cons] at hfuel; omega
      have hf' : bytesFind ((data ++ c) ++ joinL cs) d = some i := by
        simpa [joinL] using hf
      rw [List.map_cons, read_until_chunk_step hfd]
      obtain ⟨j, data', hj, heq, hrest⟩ := ih (data ++ c) f hfuel' hf'
      refine ⟨j + 1, data', by simp; omega, ?_, ?_⟩
      · simpa [joinL] using heq
      · simpa [joinL] using hrest

theorem read_until_chunks_eof_none (cs : List (List Nat)) (data : List Nat)
    (s : List Nat) (se : List SendEvent) (evs : List RecvEvent) (d : List Nat)
    (incl : Bool) (fuel : Nat)
    (hf : bytesFind (data ++ joinL cs) d = none) :
    read_until fuel d incl
      ⟨data, List.map RecvEvent.chunk cs ++ RecvEvent.eof :: evs, s, se, false⟩ =
      none := by
  induction cs generalizing data fuel with
  | nil =>
    have hf' : bytesFind data d = none := by simpa [joinL] using hf
    rw [List.map_nil, List.nil_append]
    exact read_until_eof_none fuel hf'
  | cons c cs ih =>
    have hfd : bytesFind data d = none := by
      have : bytesFind (data ++ (c ++ joinL cs)) d = none := by simpa [joinL] using hf
      exact bytesFind_none_mono this
    have hf' : bytesFind ((data ++ c) ++ joinL cs) d = none := by
      simpa [joinL] using hf
    cases fuel with
    | zero => rfl
    | succ f =>
      rw [List.map_cons, List.cons_append, read_until_chunk_step hfd]
      exact ih (data ++ c) f hf'

theorem take_at_found {full d : List Nat} {i : Nat} (hf : bytesFind full d = some i) :
    full.take (i + d.length) = full.take i ++ d := by
  rw [List.take_add]
  rw [isPfx_take (bytesFind_isPfx hf)]

theorem length_natToBytesBE (n : Nat) : ∀ v, (natToBytesBE n v).length = n := by
  induction n with
  | zero => intro v; rfl
  | succ k ih => intro v; simp [natToBytesBE, ih]

theorem mod_mul_base (q r k : Nat) (hr : r < 256) :
    (256 * q + r) % (256 * 256 ^ k) = 256 * (q % 256 ^ k) + r := by
  have hk : 0 < (256:Nat) ^ k := pow_pos (by omega) k
  have h1 : q % 256 ^ k < 256 ^ k := Nat.mod_lt q hk
  have hlt : 256 * (q % 256 ^ k) + r < 256 * 256 ^ k := by omega
  calc (256 * q + r) % (256 * 256 ^ k)
      = ((256 * q) % (256 * 256 ^ k) + r % (256 * 256 ^ k)) % (256 * 256 ^ k) := by
        rw [Nat.add_mod]
    _ = (256 * (q % 256 ^ k) + r) % (256 * 256 ^ k) := by
        rw [Nat.mul_mod_mul_left,
          Nat.mod_eq_of_lt (show r < 256 * 256 ^ k by omega)]
    _ = 256 * (q % 256 ^ k) + r := Nat.mod_eq_of_lt hlt

theorem foldl_natToBytesBE (n : Nat) : ∀ v a,
    (natToBytesBE n v).foldl (fun x b => 256 * x + b) a = a * 256 ^ n + v % 256 ^ n := by
  induction n with
  | zero => intro v a; simp [natToBytesBE, Nat.mod_one]
  | succ k ih =>
    intro v a
    rw [natToBytesBE, List.foldl_append, ih]
    simp only [List.foldl_cons, List.foldl_nil]
    have hr : v % 256 < 256 := Nat.mod_lt v (by omega)
    have hpow : (256:Nat) ^ (k + 1) = 256 * 256 ^ k := by
      rw [pow_succ]; ring
    have hdec : v % (256 * 256 ^ k) = 256 * (v / 256 % 256 ^ k) + v % 256 := by
      conv_lhs => rw [← Nat.div_add_mod v 256]
      exact mod_mul_base (v / 256) (v % 256) k hr
    rw [hpow, hdec]
    ring

theorem decodeBE_natToBytesBE (n v : Nat) :
    decodeBE (natToBytesBE n v) = v % 256 ^ n := by
  rw [decodeBE, foldl_natToBytesBE]
  simp

theorem pow_two_eq_pow_256 (n : Nat) : ((2:Int)) ^ (8 * n) = ((256:Nat) ^ n : Int) := by
  rw [pow_mul]
  push_cast
  norm_num

theorem emod_toNat_lt (v : Int) (n : Nat) :
    (v % (2:Int) ^ (8 * n)).toNat < 256 ^ n := by
  have hpos : (0:Int) < 2 ^ (8 * n) := pow_pos (by norm_num) _
  have hlt : v % 2 ^ (8 * n) < 2 ^ (8 * n) := Int.emod_lt_of_pos v hpos
  have hnn : 0 ≤ v % 2 ^ (8 * n) := Int.emod_nonneg v (ne_of_gt hpos)
  have hu : ((v % 2 ^ (8 * n)).toNat : Int) = v % 2 ^ (8 * n) := Int.toNat_of_nonneg hnn
  have : ((v % 2 ^ (8 * n)).toNat : Int) < ((256:Nat) ^ n : Int) := by
    rw [hu, ← pow_two_eq_pow_256]
    exact hlt
  exact_mod_cast this


theorem read_raw_of_le {fuel n : Nat} {data : List Nat} {evs : List RecvEvent}
    {s : List Nat} {se : List SendEvent} {cl : Bool} (h : ¬ data.length < n) :
    read_raw (fuel + 1) n ⟨data, evs, s, se, cl⟩ =
      some (Except.ok (data.take n), ⟨data.drop n, evs, s, se, cl⟩) := by
  simp [read_raw, h]

theorem read_raw_chunk_step {fuel n : Nat} {data ch : List Nat} {evs : List RecvEvent}
    {s : List Nat} {se : List SendEvent} (h : data.length < n) :
    read_raw (fuel + 1) n ⟨data, RecvEvent.chunk ch :: evs, s, se, false⟩ =
      read_raw fuel n ⟨data ++ ch, evs, s, se, false⟩ := by
  simp [read_raw, recv, h]

theorem read_raw_timeout_step {fuel n : Nat} {data : List Nat} {evs : List RecvEvent}
    {s : List Nat} {se : List SendEvent} (h : data.length < n) :
    read_raw (fuel + 1) n ⟨data, RecvEvent.timeout :: evs, s, se, false⟩ =
      some (Except.error ConnError.timeoutError, ⟨data, evs, s, se, false⟩) := by
  simp [read_raw, recv, h]

theorem read_raw_closed_step {fuel n : Nat} {data : List Nat} {evs : List RecvEvent}
    {s : List Nat} {se : List SendEvent} (h : data.length < n) :
    read_raw (fuel + 1) n ⟨data, RecvEvent.closed :: evs, s, se, false⟩ =
      some (Except.error ConnError.connectionClosedError, ⟨data, evs, s, se, false⟩) := by
  simp [read_raw, recv, h]

theorem read_raw_eof_step {fuel n : Nat} {data : List Nat} {evs : List RecvEvent}
    {s : List Nat} {se : List SendEvent} (h : data.length < n) :
    read_raw (fuel + 1) n ⟨data, RecvEvent.eof :: evs, s, se, false⟩ =
      read_raw fuel n ⟨data, RecvEvent.eof :: evs, s, se, false⟩ := by
  simp [read_raw, recv, h]

theorem read_raw_eof_none (fuel : Nat) {n : Nat} {data : List Nat} {evs : List RecvEvent}
    {s : List Nat} {se : List SendEvent} (h : data.length < n) :
    read_raw fuel n ⟨data, RecvEvent.eof :: evs, s, se, false⟩ = none := by
  induction fuel with
  | zero => rfl
  | succ f ih => rw [read_raw_eof_step h]; exact ih

theorem read_raw_chunks (cs : List (List Nat)) (data : List Nat) (s : List Nat)
    (se : List SendEvent) (n fuel : Nat) (hfuel : cs.length < fuel)
    (hn : n ≤ data.length + (joinL cs).length) :
    ∃ j, j ≤ cs.length ∧ n ≤ (data ++ joinL (cs.take j)).length ∧
      (∀ k, k < j → (data ++ joinL (cs.take k)).length < n) ∧
      read_raw fuel n ⟨data, List.map RecvEvent.chunk cs, s, se, false⟩ =
        some (Except.ok ((data ++ joinL (cs.take j)).take n),
          ⟨(data ++ joinL (cs.take j)).drop n, List.map RecvEvent.chunk (cs.drop j),
            s, se, false⟩) := by
  induction cs generalizing data fuel with
  | nil =>
    have hn' : n ≤ data.length := by simpa [joinL] using hn
    obtain ⟨f, rfl⟩ : ∃ f, fuel = f + 1 := ⟨fuel - 1, by omega⟩
    refine ⟨0, Nat.le_refl 0, by simpa [joinL] using hn',
      fun k hk => absurd hk (by omega), ?_⟩
    rw [read_raw_of_le (by omega)]
    simp [joinL]
  | cons c cs ih =>
    obtain ⟨f, rfl⟩ : ∃ f, fuel = f + 1 := ⟨fuel - 1, by omega⟩
    by_cases hd : data.length < n
    · have hfuel' : cs.length < f := by
        simp only [List.length_cons] at hfuel; omega
      have hn' : n ≤ (data ++ c).length + (joinL cs).length := by
        simp [joinL] at hn ⊢; omega
      rw [List.map_cons, read_raw_chunk_step hd]
      obtain ⟨j, hj, hge, hmin, heq⟩ := ih (data ++ c) f hfuel' hn'
      refine ⟨j + 1, by simp; omega, ?_, ?_, ?_⟩
      · simp [joinL] at hge ⊢; omega
      · intro k hk
        cases k with
        | zero => simpa [joinL] using hd
        | succ k' =>
          have := hmin k' (by omega)
          simp [joinL] at this ⊢; omega
      · simpa [joinL] using heq
    · refine ⟨0, by omega, by simp [joinL]; omega,
        fun k hk => absurd hk (by omega), ?_⟩
      rw [read_raw_of_le hd]
      simp [joinL]

theorem read_raw_chunks_error (cs : List (List Nat)) (data : List Nat) (s : List Nat)
    (se : List SendEvent) (e : RecvEvent) (err : ConnError) (rest : List RecvEvent)
    (n fuel : Nat)
    (he : (e = RecvEvent.timeout ∧ err = ConnError.timeoutError) ∨
      (e = RecvEvent.closed ∧ err = ConnError.connectionClosedError))
    (hfuel : cs.length < fuel)
    (hlt : data.length + (joinL cs).length < n) :
    read_raw fuel n ⟨data, List.map RecvEvent.chunk cs ++ e :: rest, s, se, false⟩ =
      some (Except.error err, ⟨data ++ joinL cs, rest, s, se, false⟩) := by
  induction cs generalizing data fuel with
  | nil =>
    have hd : data.length < n := by simpa [joinL] using hlt
    obtain ⟨f, rfl⟩ : ∃ f, fuel = f + 1 := ⟨fuel - 1, by omega⟩
    rcases he with ⟨rfl, rfl⟩ | ⟨rfl, rfl⟩
    · rw [List.map_nil, List.nil_append, read_raw_timeout_step hd]
      simp [joinL]
    · rw [List.map_nil, List.nil_append, read_raw_closed_step hd]
      simp [joinL]
  | cons c cs ih =>
    obtain ⟨f, rfl⟩ : ∃ f, fuel = f + 1 := ⟨fuel - 1, by omega⟩
    have hd : data.length < n := by simp [joinL] at hlt; omega
    have hfuel' : cs.length < f := by
      simp only [List.length_cons] at hfuel; omega
    have hlt' : (data ++ c).length + (joinL cs).length < n := by
      simp [joinL] at hlt ⊢; omega
    rw [List.map_cons, List.cons_append, read_raw_chunk_step hd]
    have := ih (data ++ c) f hfuel' hlt'
    simpa [joinL] using this

theorem read_raw_chunks_eof_none (cs : List (List Nat)) (data : List Nat) (s : List Nat)
    (se : List SendEvent) (evs : List RecvEvent) (n fuel : Nat)
    (hlt : data.length + (joinL cs).length < n) :
    read_raw fuel n ⟨data, List.map RecvEvent.chunk cs ++ RecvEvent.eof :: evs, s, se, false⟩ =
      none := by
  induction cs generalizing data fuel with
  | nil =>
    have hd : data.length < n := by simpa [joinL] using hlt
    rw [List.map_nil, List.nil_append]
    exact read_raw_eof_none fuel hd
  | cons c cs ih =>
    have hd : data.length < n := by simp [joinL] at hlt; omega
    have hlt' : (data ++ c).length + (joinL cs).length < n := by
      simp [joinL] at hlt ⊢; omega
    cases fuel with
    | zero => rfl
    | succ f =>
      rw [List.map_cons, List.cons_append, read_raw_chunk_step hd]
      exact ih (data ++ c) f hlt'

theorem joinL_append (xs ys : List (List Nat)) :
    joinL (xs ++ ys) = joinL xs ++ joinL ys := by
  induction xs with
  | nil => simp [joinL]
  | cons x xs ih => simp [joinL, ih]

theorem joinL_take_drop (cs : List (List Nat)) (j : Nat) :
    joinL (cs.take j) ++ joinL (cs.drop j) = joinL cs := by
  rw [← joinL_append, List.take_append_drop]

/-- Claim C1: for every requested count `n` and every pending-buffer state,
`read_raw n` keeps receiving while the buffer holds fewer than `n` bytes,
then splits the accumulated buffer at offset `n`: the prefix (exactly `n`
bytes, in original order, equal to the first `n` bytes of pending plus
received data) is returned, the suffix is retained as the new pending
buffer. -/
theorem claim_C1 (n fuel : Nat) (data : List Nat) (cs : List (List Nat))
    (s : List Nat) (se : List SendEvent)
    (hfuel : cs.length < fuel)
    (hn : n ≤ data.length + (joinL cs).length) :
    ∃ j, j ≤ cs.length ∧
      (∀ k, k < j → (data ++ joinL (cs.take k)).length < n) ∧
      n ≤ (data ++ joinL (cs.take j)).length ∧
      read_raw fuel n ⟨data, List.map RecvEvent.chunk cs, s, se, false⟩ =
        some (Except.ok ((data ++ joinL (cs.take j)).take n),
          ⟨(data ++ joinL (cs.take j)).drop n, List.map RecvEvent.chunk (cs.drop j),
            s, se, false⟩) ∧
      ((data ++ joinL (cs.take j)).take n).length = n ∧
      (data ++ joinL (cs.take j)).take n = (data ++ joinL cs).take n := by
  obtain ⟨j, hj, hge, hmin, heq⟩ := read_raw_chunks cs data s se n fuel hfuel hn
  refine ⟨j, hj, hmin, hge, heq, ?_, ?_⟩
  · rw [List.length_take]; omega
  · have hsplit : data ++ joinL cs = (data ++ joinL (cs.take j)) ++ joinL (cs.drop j) := by
      rw [List.append_assoc, joinL_take_drop]
    rw [hsplit, List.take_append_of_le_length hge]

/-- Witness for C1: buffer empty, stream delivers chunks [1,2] and [3],
read 2 bytes. -/
theorem claim_C1_witness :
    ∃ j, j ≤ ([[1, 2], [3]] : List (List Nat)).length ∧
      (∀ k, k < j → (([] : List Nat) ++ joinL ([[1, 2], [3]].take k)).length < 2) ∧
      2 ≤ (([] : List Nat) ++ joinL ([[1, 2], [3]].take j)).length ∧
      read_raw 3 2 ⟨[], List.map RecvEvent.chunk [[1, 2], [3]], [], [], false⟩ =
        some (Except.ok ((([] : List Nat) ++ joinL ([[1, 2], [3]].take j)).take 2),
          ⟨(([] : List Nat) ++ joinL ([[1, 2], [3]].take j)).drop 2,
            List.map RecvEvent.chunk ([[1, 2], [3]].drop j), [], [], false⟩) ∧
      ((([] : List Nat) ++ joinL ([[1, 2], [3]].take j)).take 2).length = 2 ∧
      (([] : List Nat) ++ joinL ([[1, 2], [3]].take j)).take 2 =
        (([] : List Nat) ++ joinL [[1, 2], [3]]).take 2 :=
  claim_C1 2 3 [] [[1, 2], [3]] [] [] (by decide) (by decide)

/-- Claim C2: for a non-empty delimiter `d` whose first occurrence in the
accumulated stream is at index `i`, `read_until` returns everything up to
that occurrence — with `d` attached when the include flag is set, without
it otherwise — and retains the remainder (buffered plus unread stream) as
the new pending data; and `read_line` is exactly `read_until` with the
single newline byte and include = true. -/
theorem claim_C2 (d data : List Nat) (cs : List (List Nat)) (s : List Nat)
    (se : List SendEvent) (incl : Bool) (i fuel : Nat)
    (hd : d ≠ [])
    (hfuel : cs.length < fuel)
    (hf : bytesFind (data ++ joinL cs) d = some i) :
    (∃ j data', j ≤ cs.length ∧
      read_until fuel d incl ⟨data, List.map RecvEvent.chunk cs, s, se, false⟩ =
        some (Except.ok (if incl then (data ++ joinL cs).take i ++ d
            else (data ++ joinL cs).take i),
          ⟨data', List.map RecvEvent.chunk (cs.drop j), s, se, false⟩) ∧
      data' ++ joinL (cs.drop j) =
        (data ++ joinL cs).drop (if incl then i + d.length else i)) ∧
    (∀ f c, read_line f c = read_until f [10] true c) := by
  constructor
  · obtain ⟨j, data', hj, heq, hrest⟩ :=
      read_until_chunks cs data s se d incl i fuel hfuel hf
    have hval : (data ++ joinL cs).take (if incl then i + d.length else i) =
        (if incl then (data ++ joinL cs).take i ++ d
          else (data ++ joinL cs).take i) := by
      cases incl
      · simp
      · simp [take_at_found hf]
    rw [hval] at heq
    exact ⟨j, data', hj, heq, hrest⟩
  · intro f c
    rfl

/-- Witness for C2: pending [97], stream chunk [98,10,99], delimiter the
newline byte, include = true. -/
theorem claim_C2_witness :
    (∃ j data', j ≤ ([[98, 10, 99]] : List (List Nat)).length ∧
      read_until 2 [10] true ⟨[97], List.map RecvEvent.chunk [[98, 10, 99]], [], [], false⟩ =
        some (Except.ok (if true then ([97] ++ joinL [[98, 10, 99]]).take 2 ++ [10]
            else ([97] ++ joinL [[98, 10, 99]]).take 2),
          ⟨data', List.map RecvEvent.chunk ([[98, 10, 99]].drop j), [], [], false⟩) ∧
      data' ++ joinL ([[98, 10, 99]].drop j) =
        ([97] ++ joinL [[98, 10, 99]]).drop (if true then 2 + [10].length else 2)) ∧
    (∀ f c, read_line f c = read_until f [10] true c) :=
  claim_C2 [10] [97] [[98, 10, 99]] [] [] true 2 2 (by decide) (by decide) (by decide)

/-- Claim C3: a transport failure (timeout or connection-closed) inside
`read_raw` propagates unchanged, no partial result is returned, and every
byte moved into the pending buffer before the failure stays buffered; a
later `read_raw` that succeeds returns exactly those buffered bytes first. -/
theorem claim_C3 (data : List Nat) (cs ds : List (List Nat)) (s : List Nat)
    (se : List SendEvent) (e : RecvEvent) (err : ConnError) (n fuel fuel2 : Nat)
    (he : (e = RecvEvent.timeout ∧ err = ConnError.timeoutError) ∨
      (e = RecvEvent.closed ∧ err = ConnError.connectionClosedError))
    (hfuel : cs.length < fuel)
    (hlt : data.length + (joinL cs).length < n)
    (hfuel2 : ds.length < fuel2)
    (hn2 : n ≤ (data ++ joinL cs).length + (joinL ds).length) :
    read_raw fuel n
        ⟨data, List.map RecvEvent.chunk cs ++ e :: List.map RecvEvent.chunk ds,
          s, se, false⟩ =
      some (Except.error err, ⟨data ++ joinL cs, List.map RecvEvent.chunk ds, s, se, false⟩) ∧
    ∃ r c2, read_raw fuel2 n ⟨data ++ joinL cs, List.map RecvEvent.chunk ds, s, se, false⟩ =
        some (Except.ok ((data ++ joinL cs) ++ r), c2) ∧
      ((data ++ joinL cs) ++ r).length = n := by
  constructor
  · exact read_raw_chunks_error cs data s se e err (List.map RecvEvent.chunk ds) n fuel
      he hfuel hlt
  · obtain ⟨j, hj, hge, hmin, heq⟩ :=
      read_raw_chunks ds (data ++ joinL cs) s se n fuel2 hfuel2 hn2
    have hlapp : (data ++ joinL cs).length = data.length + (joinL cs).length :=
      List.length_append _ _
    have hbuf : (data ++ joinL cs).length ≤ n := by omega
    have hform : ((data ++ joinL cs) ++ joinL (ds.take j)).take n =
        (data ++ joinL cs) ++
          ((joinL (ds.take j)).take (n - (data ++ joinL cs).length)) := by
      rw [List.take_append_eq_append_take, List.take_of_length_le hbuf]
    refine ⟨(joinL (ds.take j)).take (n - (data ++ joinL cs).length),
      ⟨((data ++ joinL cs) ++ joinL (ds.take j)).drop n,
        List.map RecvEvent.chunk (ds.drop j), s, se, false⟩, ?_, ?_⟩
    · rw [← hform]
      exact heq
    · rw [← hform, List.length_take]
      omega

/-- Witness for C3: 3 of 10 bytes arrive, then a timeout; the retry gets
the remaining 7 and returns the buffered 3 bytes first. -/
theorem claim_C3_witness :
    read_raw 2 10
        ⟨[], List.map RecvEvent.chunk [[1, 2, 3]] ++ RecvEvent.timeout ::
          List.map RecvEvent.chunk [[4, 5, 6, 7, 8, 9, 10]], [], [], false⟩ =
      some (Except.error ConnError.timeoutError,
        ⟨[] ++ joinL [[1, 2, 3]],
          List.map RecvEvent.chunk [[4, 5, 6, 7, 8, 9, 10]], [], [], false⟩) ∧
    ∃ r c2, read_raw 2 10
        ⟨[] ++ joinL [[1, 2, 3]],
          List.map RecvEvent.chunk [[4, 5, 6, 7, 8, 9, 10]], [], [], false⟩ =
        some (Except.ok (([] ++ joinL [[1, 2, 3]]) ++ r), c2) ∧
      (([] ++ joinL [[1, 2, 3]]) ++ r).length = 10 :=
  claim_C3 [] [[1, 2, 3]] [[4, 5, 6, 7, 8, 9, 10]] [] []
    RecvEvent.timeout ConnError.timeoutError 10 2 2
    (Or.inl ⟨rfl, rfl⟩) (by decide) (by decide) (by decide) (by decide)


/-- Claim C4 (refuted: the code loops instead of failing): when the peer
has closed the stream — every receive past the scripted chunks returns the
empty byte string forever — a `read_raw` that still needs bytes, and a
`read_until` whose delimiter never appears, never terminate for any fuel
bound: the source busy-loops on `recv` returning `b""` and no
connection-closed error is ever raised. -/
theorem claim_C4 (n fuel : Nat) (data : List Nat) (cs : List (List Nat))
    (s : List Nat) (se : List SendEvent) (evs : List RecvEvent)
    (hlt : data.length + (joinL cs).length < n) :
    read_raw fuel n
        ⟨data, List.map RecvEvent.chunk cs ++ RecvEvent.eof :: evs, s, se, false⟩ =
      none ∧
    (∀ d incl, bytesFind (data ++ joinL cs) d = none →
      read_until fuel d incl
          ⟨data, List.map RecvEvent.chunk cs ++ RecvEvent.eof :: evs, s, se, false⟩ =
        none) := by
  constructor
  · exact read_raw_chunks_eof_none cs data s se evs n fuel hlt
  · intro d incl hf
    exact read_until_chunks_eof_none cs data s se evs d incl fuel hf

/-- Witness for C4: empty buffer, peer closed immediately, one byte
requested; no fuel bound suffices. -/
theorem claim_C4_witness :
    (read_raw 5 1
        ⟨[], List.map RecvEvent.chunk [] ++ RecvEvent.eof :: [], [], [], false⟩ =
      none ∧
    (∀ d incl, bytesFind (([] : List Nat) ++ joinL []) d = none →
      read_until 5 d incl
          ⟨[], List.map RecvEvent.chunk [] ++ RecvEvent.eof :: [], [], [], false⟩ =
        none)) :=
  claim_C4 1 5 [] [] [] [] [] (by decide)

/-- Claim C5: `write` hands the whole payload to the transport send in a
single call: either the entire payload is appended to the transmitted
bytes and the call returns success, or the call fails with an error and
the transmitted bytes are unchanged — a partial transmission is never
silently accepted. -/
theorem claim_C5 (v : List Nat) (c : Connection) :
    ((write v c).1 = Except.ok () ∧ (write v c).2.sent = c.sent ++ v) ∨
    (∃ e, (write v c).1 = Except.error e ∧ (write v c).2.sent = c.sent) := by
  obtain ⟨data, evs, sent, sevs, cl⟩ := c
  cases cl
  · cases sevs with
    | nil =>
      left
      constructor <;> simp [write, send]
    | cons ev rest =>
      cases ev with
      | accept =>
        left
        constructor <;> simp [write, send]
      | timeout =>
        right
        refine ⟨ConnError.timeoutError, ?_, ?_⟩ <;> simp [write, send]
      | closed =>
        right
        refine ⟨ConnError.connectionClosedError, ?_, ?_⟩ <;> simp [write, send]
  · right
    refine ⟨ConnError.connectionClosedError, ?_, ?_⟩ <;> simp [write, send]

/-- Claim C6: chunk-size independence of `read_raw`.  However the
transport splits the byte sequence `B` into chunks, reading `k` bytes and
then `B.length - k` bytes returns `B.take k` and then `B.drop k`. -/
theorem claim_C6 (B : List Nat) (k : Nat) (cs : List (List Nat)) (s : List Nat)
    (se : List SendEvent) (fuel1 fuel2 : Nat)
    (hcs : joinL cs = B) (hk : k ≤ B.length)
    (h1 : cs.length < fuel1) (h2 : cs.length < fuel2) :
    ∃ c1 c2 : Connection,
      read_raw fuel1 k ⟨[], List.map RecvEvent.chunk cs, s, se, false⟩ =
        some (Except.ok (B.take k), c1) ∧
      read_raw fuel2 (B.length - k) c1 = some (Except.ok (B.drop k), c2) := by
  subst hcs
  obtain ⟨j, hj, hge, hmin, heq⟩ :=
    read_raw_chunks cs [] s se k fuel1 h1 (by simpa using hk)
  simp only [List.nil_append] at hge heq
  have hpre : joinL (cs.take j) ++ joinL (cs.drop j) = joinL cs := joinL_take_drop cs j
  have hlen : (joinL (cs.take j)).length + (joinL (cs.drop j)).length =
      (joinL cs).length := by
    rw [← List.length_append, hpre]
  have htake1 : (joinL (cs.take j)).take k = (joinL cs).take k := by
    rw [← hpre, List.take_append_of_le_length hge]
  rw [htake1] at heq
  obtain ⟨j2, hj2, hge2, hmin2, heq2⟩ :=
    read_raw_chunks (cs.drop j) ((joinL (cs.take j)).drop k) s se
      ((joinL cs).length - k) fuel2
      (by have := List.length_drop j cs; have := List.length_take j cs; omega)
      (by simp [List.length_drop]; omega)
  have hfull2 : (joinL (cs.take j)).drop k ++ joinL (cs.drop j) =
      (joinL cs).drop k := by
    rw [← hpre, List.drop_append_of_le_length hge]
  have e1 : (joinL (cs.take j)).drop k ++ joinL (cs.drop j) =
      ((joinL (cs.take j)).drop k ++ joinL ((cs.drop j).take j2)) ++
        joinL ((cs.drop j).drop j2) := by
    rw [List.append_assoc, joinL_take_drop]
  have hkey : ((joinL (cs.take j)).drop k ++ joinL ((cs.drop j).take j2)).take
      ((joinL cs).length - k) = (joinL cs).drop k := by
    rw [show ((joinL (cs.take j)).drop k ++ joinL ((cs.drop j).take j2)).take
          ((joinL cs).length - k) =
        (((joinL (cs.take j)).drop k ++ joinL ((cs.drop j).take j2)) ++
          joinL ((cs.drop j).drop j2)).take ((joinL cs).length - k) from
      (List.take_append_of_le_length hge2).symm]
    rw [← e1, hfull2]
    exact List.take_of_length_le (by simp [List.length_drop])
  rw [hkey] at heq2
  exact ⟨⟨(joinL (cs.take j)).drop k, List.map RecvEvent.chunk (cs.drop j),
    s, se, false⟩, _, heq, heq2⟩

/-- Witness for C6: B = [1,2,3] delivered as chunks [1] and [2,3], split
at k = 2. -/
theorem claim_C6_witness :
    ∃ c1 c2 : Connection,
      read_raw 3 2 ⟨[], List.map RecvEvent.chunk [[1], [2, 3]], [], [], false⟩ =
        some (Except.ok (([1, 2, 3] : List Nat).take 2), c1) ∧
      read_raw 3 (([1, 2, 3] : List Nat).length - 2) c1 =
        some (Except.ok (([1, 2, 3] : List Nat).drop 2), c2) :=
  claim_C6 [1, 2, 3] 2 [[1], [2, 3]] [] [] 3 3 (by decide) (by decide)
    (by decide) (by decide)


/-- Claim C7: for a value that fits, `write_int` encodes into exactly
`byteCount` bytes — big-endian is the base-256 digit string of the two's
complement residue `v mod 2^(8n)` (so the decoder recovers that residue,
and recovers `v` itself in the unsigned case), little-endian is its
reversal — and hands exactly those bytes to `write`; in particular
`writeInt(258,2,big,unsigned)` sends 0x01 0x02,
`writeInt(258,2,little,unsigned)` sends 0x02 0x01, and
`writeInt(-1,1,little,signed)` sends 0xFF. -/
theorem claim_C7 (v : Int) (n : Nat) (sgn : Bool)
    (hfit : (if sgn then fitsS v n else fitsU v n) = true) :
    (∃ bs, to_bytes v n ByteOrder.big sgn = Except.ok bs ∧
      bs.length = n ∧
      to_bytes v n ByteOrder.little sgn = Except.ok bs.reverse ∧
      decodeBE bs = (v % (2 : Int) ^ (8 * n)).toNat ∧
      (sgn = false → ((decodeBE bs : Nat) : Int) = v) ∧
      (∀ c : Connection, write_int v n ByteOrder.big sgn c = write bs c ∧
        write_int v n ByteOrder.little sgn c = write bs.reverse c)) ∧
    write_int 258 2 ByteOrder.big false ⟨[], [], [], [], false⟩ =
      (Except.ok (), ⟨[], [], [1, 2], [], false⟩) ∧
    write_int 258 2 ByteOrder.little false ⟨[], [], [], [], false⟩ =
      (Except.ok (), ⟨[], [], [2, 1], [], false⟩) ∧
    write_int (-1) 1 ByteOrder.little true ⟨[], [], [], [], false⟩ =
      (Except.ok (), ⟨[], [], [255], [], false⟩) := by
  refine ⟨?_, rfl, rfl, rfl⟩
  refine ⟨natToBytesBE n (v % (2 : Int) ^ (8 * n)).toNat, ?_, ?_, ?_, ?_, ?_, ?_⟩
  · simp [to_bytes, hfit]
  · exact length_natToBytesBE n _
  · simp [to_bytes, hfit]
  · rw [decodeBE_natToBytesBE]
    exact Nat.mod_eq_of_lt (emod_toNat_lt v n)
  · intro hs
    subst hs
    simp [fitsU] at hfit
    obtain ⟨h0, h1⟩ := hfit
    rw [decodeBE_natToBytesBE, Nat.mod_eq_of_lt (emod_toNat_lt v n),
      Int.emod_eq_of_lt h0 h1]
    exact Int.toNat_of_nonneg h0
  · intro c
    constructor <;> simp [write_int, to_bytes, hfit]

/-- Witness for C7 at value 258, two bytes, unsigned. -/
theorem claim_C7_witness :
    (∃ bs, to_bytes 258 2 ByteOrder.big false = Except.ok bs ∧
      bs.length = 2 ∧
      to_bytes 258 2 ByteOrder.little false = Except.ok bs.reverse ∧
      decodeBE bs = ((258 : Int) % (2 : Int) ^ (8 * 2)).toNat ∧
      (false = false → ((decodeBE bs : Nat) : Int) = 258) ∧
      (∀ c : Connection, write_int 258 2 ByteOrder.big false c = write bs c ∧
        write_int 258 2 ByteOrder.little false c = write bs.reverse c)) ∧
    write_int 258 2 ByteOrder.big false ⟨[], [], [], [], false⟩ =
      (Except.ok (), ⟨[], [], [1, 2], [], false⟩) ∧
    write_int 258 2 ByteOrder.little false ⟨[], [], [], [], false⟩ =
      (Except.ok (), ⟨[], [], [2, 1], [], false⟩) ∧
    write_int (-1) 1 ByteOrder.little true ⟨[], [], [], [], false⟩ =
      (Except.ok (), ⟨[], [], [255], [], false⟩) :=
  claim_C7 258 2 false (by decide)

/-- Claim C8: when the value does not fit in `byteCount` bytes under the
requested signedness, `write_int` fails with the encoding error before
any byte is handed to `write`: the result state is the unchanged
connection, whatever the transport would have done, and the transmitted
bytes are untouched.  The unsigned fit check fails exactly for negative
values and for magnitudes of at least `2^(8*byteCount)`. -/
theorem claim_C8 (v : Int) (n : Nat) (bo : ByteOrder) (sgn : Bool) (c : Connection)
    (hnofit : (if sgn then fitsS v n else fitsU v n) = false) :
    write_int v n bo sgn c = (Except.error ConnError.encodingError, c) ∧
    (write_int v n bo sgn c).2.sent = c.sent ∧
    (fitsU v n = false ↔ (v < 0 ∨ (2 : Int) ^ (8 * n) ≤ v)) := by
  have h1 : write_int v n bo sgn c = (Except.error ConnError.encodingError, c) := by
    simp [write_int, to_bytes, hnofit]
  refine ⟨h1, by rw [h1], ?_⟩
  simp only [fitsU, Bool.and_eq_false_iff, decide_eq_false_iff_not]
  constructor
  · intro h
    rcases h with h | h
    · left; omega
    · right; omega
  · intro h
    rcases h with h | h
    · left; omega
    · right; omega

/-- Witness for C8: -1 does not fit in one unsigned byte. -/
theorem claim_C8_witness :
    write_int (-1) 1 ByteOrder.little false ⟨[], [], [], [], false⟩ =
      (Except.error ConnError.encodingError, ⟨[], [], [], [], false⟩) ∧
    (write_int (-1) 1 ByteOrder.little false ⟨[], [], [], [], false⟩).2.sent =
      (⟨[], [], [], [], false⟩ : Connection).sent ∧
    (fitsU (-1) 1 = false ↔ ((-1 : Int) < 0 ∨ (2 : Int) ^ (8 * 1) ≤ -1)) :=
  claim_C8 (-1) 1 ByteOrder.little false ⟨[], [], [], [], false⟩ (by decide)

/-- Claim C9 counterexample: the claim says every `read_raw` after
`close` fails with the connection-closed error, but `close` does not
clear the pending buffer, so a read wholly satisfiable from the buffer
returns those bytes successfully without touching the socket. -/
theorem claim_C9_counterexample :
    read_raw 1 1 (close ⟨[7], [], [], [], false⟩) =
      some (Except.ok [7], ⟨[], [], [], [], true⟩) ∧
    read_raw 1 1 (close ⟨[7], [], [], [], false⟩) ≠
      some (Except.error ConnError.connectionClosedError, ⟨[], [], [], [], true⟩) := by
  constructor
  · rfl
  · intro h
    have h0 : read_raw 1 1 (close ⟨[7], [], [], [], false⟩) =
        some (Except.ok [7], (⟨[], [], [], [], true⟩ : Connection)) := rfl
    rw [h0] at h
    simp at h

/-- Claim C9 as amended: after `close`, every `write` fails with the
connection-closed error, and so does every `read_raw` that must receive
from the transport (request exceeding the pending buffer); a request
satisfiable from the pending buffer alone still returns buffered bytes. -/
theorem claim_C9 (c : Connection) (hcl : c.closed = true) :
    (∀ v, write v c = (Except.error ConnError.connectionClosedError, c)) ∧
    (∀ n fuel, c.data.length < n → 0 < fuel →
      read_raw fuel n c = some (Except.error ConnError.connectionClosedError, c)) := by
  constructor
  · intro v
    simp [write, send, hcl]
  · intro n fuel hn hf
    obtain ⟨f, rfl⟩ : ∃ f, fuel = f + 1 := ⟨fuel - 1, by omega⟩
    simp [read_raw, recv, hn, hcl]

/-- Witness for C9 on a concrete closed connection. -/
theorem claim_C9_witness :
    write [1] (⟨[], [], [], [], true⟩ : Connection) =
      (Except.error ConnError.connectionClosedError, ⟨[], [], [], [], true⟩) ∧
    read_raw 1 1 (⟨[], [], [], [], true⟩ : Connection) =
      some (Except.error ConnError.connectionClosedError, ⟨[], [], [], [], true⟩) :=
  ⟨(claim_C9 ⟨[], [], [], [], true⟩ rfl).1 [1],
    (claim_C9 ⟨[], [], [], [], true⟩ rfl).2 1 1 (by decide) (by decide)⟩

/-- Claim C10: `read_until` with an empty delimiter returns the empty
byte string at once — for either value of the include flag — without any
transport receive, and leaves the whole connection state (in particular
the pending buffer and the unread event stream) unchanged, because
searching any byte string for the empty string finds it at offset 0. -/
theorem claim_C10 (fuel : Nat) (incl : Bool) (c : Connection) :
    read_until (fuel + 1) [] incl c = some (Except.ok [], c) := by
  obtain ⟨data, evs, s, se, cl⟩ := c
  rw [read_until_found (bytesFind_nil_needle data)]
  cases incl <;> simp


example : read_raw 3 2 ⟨[], [RecvEvent.chunk [1], RecvEvent.chunk [2, 3]], [], [], false⟩ =
    some (Except.ok [1, 2], ⟨[3], [], [], [], false⟩) := rfl

example : read_raw 3 2 ⟨[5, 6, 7], [], [], [], false⟩ =
    some (Except.ok [5, 6], ⟨[7], [], [], [], false⟩) := rfl

example : read_raw 1 2 ⟨[], [RecvEvent.timeout], [], [], false⟩ =
    some (Except.error ConnError.timeoutError, ⟨[], [], [], [], false⟩) := rfl

example : read_raw 9 1 ⟨[], [RecvEvent.eof], [], [], false⟩ = none := rfl

example : bytesFind [9, 7, 8, 7, 8] [7, 8] = some 1 := rfl

example : bytesFind [9, 7] [7, 8] = none := rfl

example : read_until 2 [10] true ⟨[97], [RecvEvent.chunk [98, 10, 99]], [], [], false⟩ =
    some (Except.ok [97, 98, 10], ⟨[99], [], [], [], false⟩) := rfl

example : read_until 2 [10] false ⟨[97, 10, 99], [], [], [], false⟩ =
    some (Except.ok [97], ⟨[10, 99], [], [], [], false⟩) := rfl

example : to_bytes (-128) 1 ByteOrder.big true = Except.ok [128] := rfl

example : to_bytes 128 1 ByteOrder.big true = Except.error ConnError.encodingError := rfl

example : to_bytes 0 0 ByteOrder.big true = Except.ok [] := rfl

example : to_bytes (-1) 0 ByteOrder.big true = Except.error ConnError.encodingError := rfl

end Pwnlib
